import Mathlib

/-!
# Verification of the pyHEDGES codec core (`src/hedges.py`)

Shallow embedding of the three routines of `hedges.py` — `hash_function`,
`encode`, `decode` and `repair` (with its inner class `InfoVertex`) — and
proofs settling the frozen claims about them.

Modelling conventions:
* DNA strings are `List Char`; binary messages are `List Nat` whose members
  are `0` or `1` (numpy arrays of bits in the source).
* The external constraint oracle `bio_filter.valid(·, only_last=True)` is an
  opaque predicate `valid : List Char → Bool`.
* numpy `int64` arithmetic is modelled on unsigned representatives
  (`Nat` values `< 2 ^ 64`), with wrap-around multiplication/addition and
  sign-propagating (arithmetic) right shifts.
* Python floats (the A* scores) are modelled as rationals `ℚ`; the claims at
  stake only compare sums of the penalty constants, where the two models
  order identically.
* The unbounded `while` loops of `encode` and `repair` are given an explicit
  fuel argument; exhausting the fuel is reported as a distinguished value,
  separate from a Python exception.
-/

namespace PyHedges

/-- Result of running a fallible/looping piece of Python code under a step
budget: normal return, uncaught exception (`ValueError` in the source), or
budget exhausted (the source would still be looping). -/
inductive PyRes (α : Type) where
  | ok : α → PyRes α
  | err : PyRes α
  | spin : PyRes α
deriving DecidableEq, Repr

/-- Sign-propagating (arithmetic) right shift of a 64-bit two's-complement
value given by its unsigned representative, as numpy applies `>>` to
`int64`. -/
def int64Shr (x n : Nat) : Nat :=
  if x < 2 ^ 63 then x / 2 ^ n
  else x / 2 ^ n + (2 ^ 64 - 2 ^ (64 - n))

/-- Left shift of a 64-bit value with wrap-around, as numpy applies `<<` to
`int64`. -/
def int64Shl (x n : Nat) : Nat := x * 2 ^ n % 2 ^ 64

/-- `hash_function` of `hedges.py` (lines 9-29): the 64-bit integer
scrambler, computed in numpy `int64` arithmetic. -/
def hash_function (source_value : Nat) : Nat :=
  let t0 := source_value * 3935559000370003845 % 2 ^ 64
  let t1 := (t0 + 2691343689449507681) % 2 ^ 64
  let t2 := t1 ^^^ int64Shr t1 21
  let t3 := t2 ^^^ int64Shl t2 37
  let t4 := t3 ^^^ int64Shr t3 4
  let t5 := t4 * 4768777513237032717 % 2 ^ 64
  let t6 := t5 ^^^ int64Shl t5 20
  let t7 := t6 ^^^ int64Shr t6 41
  t7 ^^^ int64Shl t7 5

/-- The 64-bit scrambler exactly as §4.1 of the spec writes it, parameterised
by its three integer constants (the multiplier, the addend and the second
multiplier), in the same two's-complement wrap-around arithmetic; written
for comparison with the source's `hash_function`. -/
def hashMixerSpec (c1 c2 c3 : Nat) (x : Nat) : Nat :=
  let y0 := x * c1 % 2 ^ 64
  let y1 := (y0 + c2) % 2 ^ 64
  let y2 := y1 ^^^ int64Shr y1 21
  let y3 := y2 ^^^ int64Shl y2 37
  let y4 := y3 ^^^ int64Shr y3 4
  let y5 := y4 * c3 % 2 ^ 64
  let y6 := y5 ^^^ int64Shl y5 20
  let y7 := y6 ^^^ int64Shr y6 41
  y7 ^^^ int64Shl y7 5

/-- Modelled from the spec: `bit_to_number` of the external `dsw` package
(not part of this repository), which converts the previous-bits window to an
integer; §4.2 of the spec fixes the window to be read
most-significant-bit first. -/
def bit_to_number (bits : List Nat) : Nat :=
  bits.foldl (fun a b => 2 * a + b) 0

/-- The available-nucleotide set recomputed by `encode` (lines 95-98),
`decode` (lines 171-174) and `InfoVertex.next` (lines 242-245): the members
of `mapping`, in order, whose appending keeps the prefix valid. -/
def availSet (valid : List Char → Bool) (mapping : List Char) (dna : List Char) : List Char :=
  mapping.filter (fun n => valid (dna ++ [n]))

section Codec

variable (binary_message : List Nat) (mapping : List Char) (valid : List Char → Bool)
variable (salt_index previous_number low_order_number : Nat)

/-- One dispatch of the `encode` loop body (lines 66-91): from the current
available set and bit cursor, the emitted nucleotide and the new cursor. -/
def encStep (avail : List Char) (bit_location : Nat) : Char × Nat :=
  let bit_index := bit_location % 2 ^ low_order_number
  let previous_value :=
    if previous_number ≤ bit_location then
      bit_to_number ((binary_message.drop (bit_location - previous_number)).take previous_number)
    else 0
  if avail.length = 1 then
    (avail.getD 0 'A', bit_location)
  else if avail.length = 2 ∨ avail.length = 3 then
    let hash_value := hash_function (bit_index ||| previous_value ||| salt_index) % 2
    let bit_value := binary_message.getD bit_location 0
    (avail.getD ((hash_value + bit_value) % 2) 'A', bit_location + 1)
  else
    let hash_value := hash_function (bit_index ||| previous_value ||| salt_index) % 4
    let bit_value :=
      if bit_location + 2 ≤ binary_message.length then
        2 * binary_message.getD bit_location 0 + binary_message.getD (bit_location + 1) 0
      else binary_message.getD bit_location 0
    (avail.getD ((hash_value + bit_value) % 4) 'A', bit_location + 2)

/-- The `while` loop of `encode` (lines 66-102), with explicit fuel: state is
the DNA string built so far, the current available set and the bit cursor. -/
def encodeLoop : Nat → List Char → List Char → Nat → PyRes (List Char)
  | 0, _, _, _ => .spin
  | fuel + 1, dna_string, avail, bit_location =>
    if bit_location < binary_message.length then
      let step := encStep binary_message salt_index previous_number
        low_order_number avail bit_location
      let dna' := dna_string ++ [step.1]
      let avail' := availSet valid mapping dna'
      if avail'.length = 0 then .err
      else encodeLoop fuel dna' avail' step.2
    else .ok dna_string

end Codec

/-- `encode` of `hedges.py` (lines 32-104). -/
def encode (binary_message : List Nat) (strand_index : Nat) (mapping : List Char)
    (valid : List Char → Bool) (salt_number previous_number low_order_number fuel : Nat) :
    PyRes (List Char) :=
  encodeLoop binary_message mapping valid (strand_index % 2 ^ salt_number)
    previous_number low_order_number fuel [] mapping 0

section Decode

variable (mapping : List Char) (valid : List Char → Bool)
variable (salt_index previous_number low_order_number : Nat)
variable (dna_string : List Char) (bit_length : Nat)

/-- One dispatch of the `decode` loop body (lines 145-169): from the current
available set, the observed nucleotide and the bits decoded so far, the
extended bit accumulator. -/
def decodeStepAcc (avail : List Char) (nucleotide : Char) (acc : List Nat) :
    List Nat :=
  let bit_index := acc.length % 2 ^ low_order_number
  let previous_value :=
    if previous_number ≤ acc.length then
      bit_to_number (acc.drop (acc.length - previous_number))
    else 0
  if avail.length = 1 then acc
  else if avail.length = 2 ∨ avail.length = 3 then
    let hash_value := hash_function (bit_index ||| previous_value ||| salt_index) % 2
    if avail.getD ((hash_value + 0) % 2) 'A' = nucleotide then acc ++ [0] else acc ++ [1]
  else
    let hash_value := hash_function (bit_index ||| previous_value ||| salt_index) % 4
    match (List.range 4).find? (fun bit_value =>
        avail.getD ((hash_value + bit_value) % 4) 'A' = nucleotide) with
    | some bit_value =>
      if bit_length < acc.length + 2 then acc ++ [bit_value % 2]
      else acc ++ [bit_value / 2, bit_value % 2]
    | none => acc

/-- The `for` loop of `decode` (lines 144-177): walks the remaining
nucleotides carrying the consumed count, the decoded bits and the current
available set. -/
def decodeGo : List Char → Nat → List Nat → List Char → PyRes (List Nat)
  | [], _, acc, _ => .ok acc
  | nucleotide :: rest, nucleotide_index, acc, avail =>
    let acc' := decodeStepAcc salt_index previous_number low_order_number
      bit_length avail nucleotide acc
    let avail' := availSet valid mapping (dna_string.take (nucleotide_index + 1))
    if avail'.length = 0 then .err
    else decodeGo rest (nucleotide_index + 1) acc' avail'

end Decode

/-- `decode` of `hedges.py` (lines 107-181). -/
def decode (dna_string : List Char) (strand_index bit_length : Nat) (mapping : List Char)
    (valid : List Char → Bool) (salt_number previous_number low_order_number : Nat) :
    PyRes (List Nat) :=
  match decodeGo mapping valid (strand_index % 2 ^ salt_number) previous_number
      low_order_number dna_string bit_length dna_string 0 [] mapping with
  | .ok acc => .ok (acc.take bit_length)
  | .err => .err
  | .spin => .spin

/-! ## Repair (A* search), `hedges.py` lines 184-371 -/

/-- The vertex state of the inner class `InfoVertex` (lines 229-232). -/
structure InfoVertex where
  previous_value : Nat
  bit_index : Nat
  string : List Char
deriving DecidableEq, Repr

/-- Fuel-indexed floor of the base-2 logarithm (the fuel makes it
structurally recursive, hence kernel-computable). -/
def floorLog2Aux : Nat → Nat → Nat
  | 0, _ => 0
  | fuel + 1, n => if 2 ≤ n then floorLog2Aux fuel (n / 2) + 1 else 0

/-- `int(floor(log2(n)))` of the source (lines 255, 288, 311), as a total
function on `Nat`. -/
def floorLog2 (n : Nat) : Nat := floorLog2Aux n n

/-- `itertools.product([0, 1], repeat = w)`, in itertools order (rightmost
position varies fastest). -/
def bitTuples : Nat → List (List Nat)
  | 0 => [[]]
  | w + 1 => (bitTuples w).flatMap (fun t => [t ++ [0], t ++ [1]])

section Repair

variable (dna_string : List Char) (mapping : List Char) (valid : List Char → Bool)
variable (previous_number low_order_number : Nat)
variable (correct_penalty insert_penalty delete_penalty mutate_penalty : ℚ)

/-- Lines 255-281: one match/mutate child of `InfoVertex.next`, for one bit
tuple `message_bit` (the nucleotide is the received symbol at the current
index, already checked to be available). -/
def matchHypothesis (available : List Char) (self : InfoVertex)
    (salt_value nucleotide_index : Nat) (current_score : ℚ) (nucleotide : Char)
    (message_bit : List Nat) : InfoVertex × ℚ × Nat :=
  let bit_index := self.bit_index % 2 ^ low_order_number
  if message_bit.length = 1 then
    let hash_value := hash_function (bit_index ||| self.previous_value ||| salt_value) % 2
    let bit_value := message_bit.getD 0 0
    let previous_value := (self.previous_value * 2 + bit_value) % 2 ^ previous_number
    let vertex : InfoVertex :=
      ⟨previous_value, self.bit_index + 1, self.string ++ [nucleotide]⟩
    if available.getD ((hash_value + bit_value) % 2) 'A' = nucleotide then
      (vertex, current_score + correct_penalty, nucleotide_index + 1)
    else
      (vertex, current_score + mutate_penalty, nucleotide_index + 1)
  else if message_bit.length = 2 then
    let hash_value := hash_function (bit_index ||| self.previous_value ||| salt_value) % 4
    let bit_value := 2 * message_bit.getD 0 0 + message_bit.getD 1 0
    let previous_value := (self.previous_value * 4 + bit_value) % 2 ^ previous_number
    let vertex : InfoVertex :=
      ⟨previous_value, self.bit_index + 2, self.string ++ [nucleotide]⟩
    if available.getD ((hash_value + bit_value) % 4) 'A' = nucleotide then
      (vertex, current_score + correct_penalty, nucleotide_index + 1)
    else
      (vertex, current_score + mutate_penalty, nucleotide_index + 1)
  else
    (⟨self.previous_value, self.bit_index, self.string ++ [nucleotide]⟩,
      current_score + correct_penalty, nucleotide_index + 1)

/-- Lines 285-307: one insertion child of `InfoVertex.next`, for one bit tuple
(the nucleotide is the received symbol at the next index; a child is kept only
when the bit pattern resolves to that nucleotide). -/
def insertHypothesis (available : List Char) (self : InfoVertex)
    (salt_value nucleotide_index : Nat) (current_score : ℚ) (nucleotide : Char)
    (message_bit : List Nat) : Option (InfoVertex × ℚ × Nat) :=
  let bit_index := self.bit_index % 2 ^ low_order_number
  if message_bit.length = 1 then
    let hash_value := hash_function (bit_index ||| self.previous_value ||| salt_value) % 2
    let bit_value := message_bit.getD 0 0
    let previous_value := (self.previous_value * 2 + bit_value) % 2 ^ previous_number
    if available.getD ((hash_value + bit_value) % 2) 'A' = nucleotide then
      some (⟨previous_value, self.bit_index + 1, self.string ++ [nucleotide]⟩,
        current_score + insert_penalty, nucleotide_index + 2)
    else none
  else if message_bit.length = 2 then
    let hash_value := hash_function (bit_index ||| self.previous_value ||| salt_value) % 4
    let bit_value := 2 * message_bit.getD 0 0 + message_bit.getD 1 0
    let previous_value := (self.previous_value * 4 + bit_value) % 2 ^ previous_number
    if available.getD ((hash_value + bit_value) % 4) 'A' = nucleotide then
      some (⟨previous_value, self.bit_index + 2, self.string ++ [nucleotide]⟩,
        current_score + insert_penalty, nucleotide_index + 2)
    else none
  else
    some (⟨self.previous_value, self.bit_index, self.string ++ [nucleotide]⟩,
      current_score + insert_penalty, nucleotide_index + 2)

/-- Lines 311-335: the deletion children of `InfoVertex.next` for one bit
tuple (the emitted nucleotide is recomputed from the hash; the `w = 2` case
uses `message_bit[0]`, not the full bit value, exactly as the source does;
the `w = 0` case emits one child per available nucleotide). -/
def deleteHypothesis (available : List Char) (self : InfoVertex)
    (salt_value nucleotide_index : Nat) (current_score : ℚ)
    (message_bit : List Nat) : List (InfoVertex × ℚ × Nat) :=
  let bit_index := self.bit_index % 2 ^ low_order_number
  if message_bit.length = 1 then
    let hash_value := hash_function (bit_index ||| self.previous_value ||| salt_value) % 2
    let bit_value := message_bit.getD 0 0
    let previous_value := (self.previous_value * 2 + bit_value) % 2 ^ previous_number
    let nucleotide := available.getD ((hash_value + bit_value) % 2) 'A'
    [(⟨previous_value, self.bit_index + 1, self.string ++ [nucleotide]⟩,
      current_score + delete_penalty, nucleotide_index)]
  else if message_bit.length = 2 then
    let hash_value := hash_function (bit_index ||| self.previous_value ||| salt_value) % 4
    let bit_value := 2 * message_bit.getD 0 0 + message_bit.getD 1 0
    let previous_value := (self.previous_value * 4 + bit_value) % 2 ^ previous_number
    let nucleotide := available.getD ((hash_value + message_bit.getD 0 0) % 4) 'A'
    [(⟨previous_value, self.bit_index + 2, self.string ++ [nucleotide]⟩,
      current_score + delete_penalty, nucleotide_index)]
  else
    available.map (fun nucleotide =>
      (⟨self.previous_value, self.bit_index, self.string ++ [nucleotide]⟩,
        current_score + delete_penalty, nucleotide_index))

/-- `InfoVertex.next` (lines 235-337): the children of one expanded vertex,
as `(vertex, score, consumed index into the received string)` triples, in
source order (match/mutate children, then insertion children, then deletion
children).  The fourth list the source returns is recovered as
`children.map (fun c => c.1.bit_index)`. -/
def vertexNext (self : InfoVertex) (salt_value nucleotide_index : Nat)
    (current_score : ℚ) : List (InfoVertex × ℚ × Nat) :=
  if (nucleotide_index : Int) > (dna_string.length : Int) - 1 then []
  else
    let available := availSet valid mapping self.string
    if available.length = 0 then []
    else
      let w := floorLog2 available.length
      let matchChildren :=
        if dna_string.getD nucleotide_index 'A' ∈ available then
          (bitTuples w).map (matchHypothesis previous_number low_order_number
            correct_penalty mutate_penalty available self salt_value nucleotide_index
            current_score (dna_string.getD nucleotide_index 'A'))
        else []
      let insertChildren :=
        if nucleotide_index + 1 < dna_string.length then
          if dna_string.getD (nucleotide_index + 1) 'A' ∈ available then
            (bitTuples w).filterMap (insertHypothesis previous_number low_order_number
              insert_penalty available self salt_value nucleotide_index
              current_score (dna_string.getD (nucleotide_index + 1) 'A'))
          else []
        else []
      let deleteChildren :=
        (bitTuples w).flatMap (deleteHypothesis previous_number low_order_number
          delete_penalty available self salt_value nucleotide_index current_score)
      matchChildren ++ insertChildren ++ deleteChildren

end Repair

/-- The priority heap of `repair` (line 340): four parallel lists of
vertices, scores, consumed indices and produced bit counts. -/
structure Heap where
  v : List InfoVertex
  s : List ℚ
  i : List Nat
  l : List Nat
deriving DecidableEq, Repr

/-- Python `min` over the score list (nonempty in every reachable state). -/
def minScore (l : List ℚ) : ℚ :=
  match l with
  | [] => 0
  | x :: xs => xs.foldl min x

/-- numpy `max` over the produced-bit-count list (nonempty in every
reachable state). -/
def maxNat (l : List Nat) : Nat := l.foldr max 0

/-- Line 344: `where(array(heap["s"]) == min(heap["s"]))[0]` — the indices
holding the minimum score, in increasing order. -/
def usedIndicesOf (h : Heap) : List Nat :=
  (List.range h.s.length).filter (fun k => h.s.getD k 0 = minScore h.s)

/-- Lines 357-358 and 366-370: the deduplicated strings of the frontier
entries whose produced bit count equals `bit_length` (Python's
`list(set(results))`, modelled up to ordering by `List.dedup`). -/
def heapWinners (h : Heap) (bit_length : Nat) : List (List Char) :=
  (((List.range h.l.length).filter (fun k => h.l.getD k 0 = bit_length)).map
    (fun k => (h.v.getD k ⟨0, 0, []⟩).string)).dedup

section RepairLoop

variable (dna_string : List Char) (mapping : List Char) (valid : List Char → Bool)
variable (previous_number low_order_number : Nat)
variable (correct_penalty insert_penalty delete_penalty mutate_penalty : ℚ)
variable (bit_length heap_limitation salt_value : Nat)

/-- The `for chuck in used_indices` loop of `repair` (lines 347-363): each
minimum-score index is retired (score overwritten with `len(dna_string)`),
expanded, the termination check run, and the children appended.  `.inl`
continues the outer loop, `.inr` is the returned value of lines 366-370. -/
def runChucks : List Nat → ℚ → Heap → Heap ⊕ (List (List Char) × Nat)
  | [], _, h => .inl h
  | chuck :: rest, used_score, h =>
    let used_vertex := h.v.getD chuck ⟨0, 0, []⟩
    let base_index := h.i.getD chuck 0
    let h1 : Heap := ⟨h.v, h.s.set chuck (dna_string.length : ℚ), h.i, h.l⟩
    let follow := vertexNext dna_string mapping valid previous_number low_order_number
      correct_penalty insert_penalty delete_penalty mutate_penalty
      used_vertex salt_value base_index used_score
    if bit_length = maxNat h1.l ∨ h1.v.length > heap_limitation then
      .inr (heapWinners h1 bit_length, h1.v.length)
    else
      runChucks rest used_score
        ⟨h1.v ++ follow.map (fun c => c.1),
         h1.s ++ follow.map (fun c => c.2.1),
         h1.i ++ follow.map (fun c => c.2.2),
         h1.l ++ follow.map (fun c => c.1.bit_index)⟩

/-- One iteration of the `while True` loop of `repair` (lines 343-363). -/
def repairBatch (h : Heap) : Heap ⊕ (List (List Char) × Nat) :=
  let used_indices := usedIndicesOf h
  let used_score := h.s.getD (used_indices.headD 0) 0
  runChucks dna_string mapping valid previous_number low_order_number
    correct_penalty insert_penalty delete_penalty mutate_penalty
    bit_length heap_limitation salt_value used_indices used_score h

/-- The `while True` loop of `repair`, with explicit fuel. -/
def repairLoop : Nat → Heap → Option (List (List Char) × Nat)
  | 0, _ => none
  | fuel + 1, h =>
    match repairBatch dna_string mapping valid previous_number low_order_number
        correct_penalty insert_penalty delete_penalty mutate_penalty
        bit_length heap_limitation salt_value h with
    | .inr res => some res
    | .inl h' => repairLoop fuel h'

end RepairLoop

/-- `repair` of `hedges.py` (lines 184-371), with explicit fuel for the
unbounded search loop (`none` = still running after `fuel` batches). -/
def repair (dna_string : List Char) (strand_index : Nat) (initial_score : ℚ)
    (bit_length : Nat) (mapping : List Char) (valid : List Char → Bool)
    (salt_number previous_number low_order_number heap_limitation : Nat)
    (correct_penalty insert_penalty delete_penalty mutate_penalty : ℚ)
    (fuel : Nat) : Option (List (List Char) × Nat) :=
  repairLoop dna_string mapping valid previous_number low_order_number
    correct_penalty insert_penalty delete_penalty mutate_penalty
    bit_length heap_limitation (strand_index % 2 ^ salt_number) fuel
    ⟨[⟨0, 0, []⟩], [initial_score], [0], [0]⟩

/-! ## Fixed concrete parameters used by witnesses and counterexamples -/

/-- The mapping `["A", "C", "G", "T"]` used throughout the repository's
tests. -/
def mapACGT : List Char := ['A', 'C', 'G', 'T']

/-- A constraint oracle that accepts every prefix. -/
def allValid : List Char → Bool := fun _ => true

/-- A constraint oracle rejecting exactly the single-nucleotide prefixes. -/
def validNe1 : List Char → Bool := fun s => decide (s.length ≠ 1)

/-- A constraint oracle accepting only prefixes of length at most one. -/
def validLe1 : List Char → Bool := fun s => decide (s.length ≤ 1)

/-- The heap after the first batch of `repair` on the received string `"A"`
with `bit_length = 1` (default penalties, all-true oracle, strand 0, heap
bound `10 ^ 6`): the root expands to eight children, all with produced bit
count `2`. -/
def c4Heap : Heap :=
  match repairBatch ['A'] mapACGT allValid 8 10 (mkRat (-7) 200) 1 1 1 1 1000000 0
      ⟨[⟨0, 0, []⟩], [0], [0], [0]⟩ with
  | .inl h => h
  | .inr _ => ⟨[], [], [], []⟩

/-! ## General lemmas about the embedded operations -/

theorem floorLog2Aux_eq_log2 : ∀ fuel n, n ≤ fuel → floorLog2Aux fuel n = Nat.log2 n := by
  intro fuel
  induction fuel with
  | zero =>
    intro n hn
    interval_cases n
    simp [floorLog2Aux, Nat.log2]
  | succ k ih =>
    intro n hn
    by_cases h2 : 2 ≤ n
    · have hdiv : n / 2 ≤ k := by omega
      rw [floorLog2Aux, if_pos h2, ih _ hdiv]
      conv_rhs => rw [Nat.log2]
      rw [if_pos h2]
    · rw [floorLog2Aux, if_neg h2, Nat.log2, if_neg h2]

/-- `floorLog2` agrees with the library's `Nat.log2` everywhere. -/
theorem floorLog2_eq_log2 (n : Nat) : floorLog2 n = Nat.log2 n :=
  floorLog2Aux_eq_log2 n n le_rfl

theorem int64Shr_lt (x n : Nat) (hx : x < 2 ^ 64) (hn : n ≤ 64) :
    int64Shr x n < 2 ^ 64 := by
  unfold int64Shr
  have hd : x / 2 ^ n < 2 ^ (64 - n) := by
    apply Nat.div_lt_of_lt_mul
    calc x < 2 ^ 64 := hx
    _ = 2 ^ n * 2 ^ (64 - n) := by rw [← pow_add]; congr 1; omega
  have hle : 2 ^ (64 - n) ≤ 2 ^ 64 := Nat.pow_le_pow_right (by norm_num) (by omega)
  split <;> omega

theorem xorShr_lt (x n : Nat) (hx : x < 2 ^ 64) (hn : n ≤ 64) :
    x ^^^ int64Shr x n < 2 ^ 64 :=
  Nat.xor_lt_two_pow hx (int64Shr_lt x n hx hn)

theorem xorShl_lt (x n : Nat) (hx : x < 2 ^ 64) :
    x ^^^ int64Shl x n < 2 ^ 64 :=
  Nat.xor_lt_two_pow hx (Nat.mod_lt _ (by norm_num))

theorem getD_mem_of_lt {α : Type} (l : List α) (i : Nat) (d : α) (h : i < l.length) :
    l.getD i d ∈ l := by
  rw [List.getD_eq_getElem l d h]; exact List.getElem_mem h

theorem getD_ne_getD {α : Type} (l : List α) (d : α) (hnd : l.Nodup) (i j : Nat)
    (hi : i < l.length) (hj : j < l.length) (hij : i ≠ j) :
    l.getD i d ≠ l.getD j d := by
  rw [List.getD_eq_getElem l d hi, List.getD_eq_getElem l d hj]
  intro hc
  exact hij ((hnd.getElem_inj_iff).mp hc)

/-- `availSet` only returns oracle-approved extensions of the prefix. -/
theorem mem_availSet {valid : List Char → Bool} {mapping dna : List Char} {n : Char}
    (h : n ∈ availSet valid mapping dna) : n ∈ mapping ∧ valid (dna ++ [n]) = true := by
  have := List.mem_filter.mp h
  exact ⟨this.1, by simpa using this.2⟩

/-- Each bit tuple produced by `bitTuples w` has length `w`. -/
theorem bitTuples_length (w : Nat) : ∀ t ∈ bitTuples w, t.length = w := by
  induction w with
  | zero => intro t ht; simp only [bitTuples, List.mem_singleton] at ht; simp [ht]
  | succ k ih =>
    intro t ht
    simp only [bitTuples, List.mem_flatMap, List.mem_cons, List.mem_singleton,
      List.not_mem_nil, or_false] at ht
    obtain ⟨u, hu, hm⟩ := ht
    rcases hm with rfl | rfl <;> simp [ih u hu]

theorem foldl_min_mem (xs : List ℚ) : ∀ x : ℚ, xs.foldl min x ∈ x :: xs := by
  induction xs with
  | nil => intro x; simp
  | cons y ys ih =>
    intro x
    rw [List.foldl_cons]
    rcases List.mem_cons.mp (ih (min x y)) with h1 | h1
    · rcases min_choice x y with hm | hm <;> rw [h1, hm] <;> simp
    · simp [h1]

/-- The Python `min` of a nonempty list is attained by one of its members. -/
theorem minScore_mem (l : List ℚ) (h : l ≠ []) : minScore l ∈ l := by
  match l, h with
  | x :: xs, _ => exact foldl_min_mem xs x

/-! ## C10: no expansion once the received string is consumed -/

/-- Shared helper: the very first guard of `InfoVertex.next`
(lines 238-239). -/
theorem vertexNext_eq_nil_of_consumed (dna_string mapping : List Char)
    (valid : List Char → Bool) (previous_number low_order_number : Nat)
    (cP iP dP mP : ℚ) (self : InfoVertex) (salt_value nucleotide_index : Nat)
    (current_score : ℚ) (h : dna_string.length ≤ nucleotide_index) :
    vertexNext dna_string mapping valid previous_number low_order_number
      cP iP dP mP self salt_value nucleotide_index current_score = [] := by
  unfold vertexNext
  rw [if_pos (by omega)]

/-- C10 (confirmed): a repair vertex whose consumed index has reached the end
of the received string expands to no children of any kind — in particular no
deletion children — so no candidate string grows after the received string
is fully consumed. -/
theorem vertexNext_no_children_when_consumed (dna_string mapping : List Char)
    (valid : List Char → Bool) (previous_number low_order_number : Nat)
    (cP iP dP mP : ℚ) (self : InfoVertex) (salt_value nucleotide_index : Nat)
    (current_score : ℚ) (h : dna_string.length ≤ nucleotide_index) :
    vertexNext dna_string mapping valid previous_number low_order_number
      cP iP dP mP self salt_value nucleotide_index current_score = [] :=
  vertexNext_eq_nil_of_consumed dna_string mapping valid previous_number
    low_order_number cP iP dP mP self salt_value nucleotide_index current_score h

theorem vertexNext_no_children_when_consumed_witness :
    vertexNext ['A'] mapACGT allValid 8 10 (mkRat (-7) 200) 1 1 1
      ⟨0, 0, ['C']⟩ 0 1 0 = [] :=
  vertexNext_no_children_when_consumed ['A'] mapACGT allValid 8 10
    (mkRat (-7) 200) 1 1 1 ⟨0, 0, ['C']⟩ 0 1 0 (by decide)

/-! ## C3: the 64-bit hash mixer -/

/-- C3 counterexample: the code's addend `2691343689449507681` is
`0x255992D382208B61`, not the claimed `0x25584FA4FF82E38B`, and its second
multiplier `4768777513237032717` is `0x422E19E1D95D2F0D`, not the claimed
`0x422EB4BE0BE98727`; consequently on the literal input `1` the source's
`hash_function` disagrees with the scrambler built from the claimed
constants. -/
theorem hash_function_spec_constants_differ :
    (2691343689449507681 : Nat) ≠ 0x25584FA4FF82E38B ∧
    (4768777513237032717 : Nat) ≠ 0x422EB4BE0BE98727 ∧
    hash_function 1 ≠
      hashMixerSpec 0x369DEA0F31A53F85 0x25584FA4FF82E38B 0x422EB4BE0BE98727 1 := by
  refine ⟨by decide, by decide, by decide⟩

/-- C3 (amended): for every integer input, `hash_function` computes the fixed
64-bit scrambler of the spec with the constants
`0x369DEA0F31A53F85`, `0x255992D382208B61` and `0x422E19E1D95D2F0D`
(the hexadecimal values of the source's decimal constants — the claim's
second and third hexadecimal constants are misrendered): multiplications and
additions modulo `2 ^ 64`, 64-bit two's-complement shifts; it is pure, every
output fits in 64 bits, the output depends on the input only through its
64-bit residue, and on the literal input `1` its output is the fixed 64-bit
value `13738603025981410947`. -/
theorem hash_function_fixed_scrambler :
    (∀ source_value : Nat,
      hash_function source_value =
        hashMixerSpec 0x369DEA0F31A53F85 0x255992D382208B61 0x422E19E1D95D2F0D
          source_value) ∧
    hash_function 1 = 13738603025981410947 ∧
    ∀ source_value : Nat,
      hash_function source_value < 2 ^ 64 ∧
      hash_function (source_value % 2 ^ 64) = hash_function source_value := by
  refine ⟨fun x => rfl, by decide, fun x => ⟨?_, ?_⟩⟩
  · simp only [hash_function]
    apply xorShl_lt
    apply xorShr_lt _ _ _ (by norm_num)
    apply xorShl_lt
    exact Nat.mod_lt _ (by norm_num)
  · simp only [hash_function, Nat.mod_mul_mod]

/-! ## Shape of the children produced by `InfoVertex.next` -/

theorem two_le_of_floorLog2_eq_one (n : Nat) (h : floorLog2 n = 1) : 2 ≤ n := by
  by_contra hn
  push_neg at hn
  interval_cases n <;> exact absurd h (by decide)

theorem four_le_of_floorLog2_eq_two (n : Nat) (h : floorLog2 n = 2) : 4 ≤ n := by
  by_contra hn
  push_neg at hn
  interval_cases n <;> exact absurd h (by decide)

theorem matchHypothesis_shape (pN lN : Nat) (cP mP : ℚ) (available : List Char)
    (self : InfoVertex) (sv j : Nat) (sc : ℚ) (n : Char) (mb : List Nat)
    (c : InfoVertex × ℚ × Nat)
    (hc : matchHypothesis pN lN cP mP available self sv j sc n mb = c) :
    c.1.string = self.string ++ [n] ∧ (c.2.1 = sc + cP ∨ c.2.1 = sc + mP) := by
  simp only [matchHypothesis] at hc
  split_ifs at hc <;> subst hc <;> simp

theorem insertHypothesis_shape (pN lN : Nat) (iP : ℚ) (available : List Char)
    (self : InfoVertex) (sv j : Nat) (sc : ℚ) (n : Char) (mb : List Nat)
    (c : InfoVertex × ℚ × Nat)
    (hc : insertHypothesis pN lN iP available self sv j sc n mb = some c) :
    c.1.string = self.string ++ [n] ∧ c.2.1 = sc + iP := by
  simp only [insertHypothesis] at hc
  split_ifs at hc <;> simp only [Option.some.injEq] at hc <;> subst hc <;> simp

theorem deleteHypothesis_shape (pN lN : Nat) (dP : ℚ) (available : List Char)
    (self : InfoVertex) (sv j : Nat) (sc : ℚ) (mb : List Nat)
    (c : InfoVertex × ℚ × Nat)
    (h1 : mb.length = 1 → 2 ≤ available.length)
    (h2 : mb.length = 2 → 4 ≤ available.length)
    (hc : c ∈ deleteHypothesis pN lN dP available self sv j sc mb) :
    (∃ n ∈ available, c.1.string = self.string ++ [n]) ∧ c.2.1 = sc + dP := by
  simp only [deleteHypothesis] at hc
  split_ifs at hc with ha hb
  · have hlt : (hash_function (self.bit_index % 2 ^ lN ||| self.previous_value ||| sv) % 2
        + mb.getD 0 0) % 2 < available.length := by
      have := h1 ha
      omega
    simp only [List.mem_singleton] at hc
    subst hc
    exact ⟨⟨_, getD_mem_of_lt available _ 'A' hlt, rfl⟩, rfl⟩
  · have hlt : (hash_function (self.bit_index % 2 ^ lN ||| self.previous_value ||| sv) % 4
        + mb.getD 0 0) % 4 < available.length := by
      have := h2 hb
      omega
    simp only [List.mem_singleton] at hc
    subst hc
    exact ⟨⟨_, getD_mem_of_lt available _ 'A' hlt, rfl⟩, rfl⟩
  · simp only [List.mem_map] at hc
    obtain ⟨n, hn, hceq⟩ := hc
    subst hceq
    exact ⟨⟨n, hn, rfl⟩, rfl⟩

/-- Every child produced by `InfoVertex.next` appends to the parent's string
one nucleotide from the parent's available set, and its score is the
parent's plus exactly one of the four penalties. -/
theorem vertexNext_child_shape (dna_string mapping : List Char)
    (valid : List Char → Bool) (pN lN : Nat) (cP iP dP mP : ℚ)
    (self : InfoVertex) (sv j : Nat) (sc : ℚ) (c : InfoVertex × ℚ × Nat)
    (hc : c ∈ vertexNext dna_string mapping valid pN lN cP iP dP mP self sv j sc) :
    (∃ n ∈ availSet valid mapping self.string, c.1.string = self.string ++ [n]) ∧
    (c.2.1 = sc + cP ∨ c.2.1 = sc + mP ∨ c.2.1 = sc + iP ∨ c.2.1 = sc + dP) := by
  simp only [vertexNext] at hc
  split at hc
  · simp at hc
  split at hc
  · simp at hc
  rename_i hlen
  simp only [List.mem_append] at hc
  rcases hc with (hc | hc) | hc
  · split at hc
    · rename_i hmem
      simp only [List.mem_map] at hc
      obtain ⟨mb, _, hceq⟩ := hc
      obtain ⟨hstr, hsc⟩ := matchHypothesis_shape pN lN cP mP _ self sv j sc _ mb c hceq
      exact ⟨⟨_, hmem, hstr⟩, by tauto⟩
    · simp at hc
  · split at hc
    · split at hc
      · rename_i hmem
        simp only [List.mem_filterMap] at hc
        obtain ⟨mb, _, hceq⟩ := hc
        obtain ⟨hstr, hsc⟩ := insertHypothesis_shape pN lN iP _ self sv j sc _ mb c hceq
        exact ⟨⟨_, hmem, hstr⟩, by tauto⟩
      · simp at hc
    · simp at hc
  · simp only [List.mem_flatMap] at hc
    obtain ⟨mb, hmb, hcmem⟩ := hc
    have hmblen := bitTuples_length _ mb hmb
    obtain ⟨hstr, hsc⟩ := deleteHypothesis_shape pN lN dP _ self sv j sc mb c
      (fun h => two_le_of_floorLog2_eq_one _ (by rw [← hmblen]; exact h))
      (fun h => four_le_of_floorLog2_eq_two _ (by rw [← hmblen]; exact h)) hcmem
    exact ⟨hstr, by tauto⟩

/-! ## C6: score evolution along repair edges

Concrete score computations add rationals; `Rat.add` is `@[irreducible]` in
the library, so sections doing kernel evaluation of scores restore its
reducibility locally. -/

section ScoreEval

attribute [local semireducible] Rat.add

/-- C6 counterexample: under the default penalties, expanding the root vertex
on the received string `"A"` (all-true oracle, strand 0, parent score `0`)
produces a child whose score `-7/200` is strictly below the parent's score,
so the accumulated score is not monotone non-decreasing across edges. -/
theorem repair_score_decreasing_edge :
    ((vertexNext ['A'] mapACGT allValid 8 10 (mkRat (-7) 200) 1 1 1
      ⟨0, 0, []⟩ 0 0 0).any (fun c => c.2.1 < 0)) = true := by decide

end ScoreEval

/-- C6 (amended): along every expansion edge of repair under the default
penalties (`correct = -0.035`, `insert = delete = mutate = 1.0`), the child's
score differs from its parent's by exactly one of the four penalties; it is
therefore at least the parent's score plus the correct penalty (i.e. at least
parent `- 0.035`), but match edges with the negative correct penalty strictly
decrease it. -/
theorem repair_score_delta_bounded (dna_string mapping : List Char)
    (valid : List Char → Bool) (pN lN : Nat) (self : InfoVertex) (sv j : Nat)
    (sc : ℚ) (c : InfoVertex × ℚ × Nat)
    (hc : c ∈ vertexNext dna_string mapping valid pN lN (mkRat (-7) 200) 1 1 1
      self sv j sc) :
    sc + (mkRat (-7) 200) ≤ c.2.1 := by
  rcases (vertexNext_child_shape dna_string mapping valid pN lN
      (mkRat (-7) 200) 1 1 1 self sv j sc c hc).2 with h | h | h | h <;>
    rw [h]
  all_goals exact add_le_add_left (show (mkRat (-7) 200 : ℚ) ≤ 1 by decide) sc

section ScoreEvalW

attribute [local semireducible] Rat.add

theorem repair_score_delta_bounded_witness :
    (0 : ℚ) + (mkRat (-7) 200) ≤
      ((vertexNext ['A'] mapACGT allValid 8 10 (mkRat (-7) 200) 1 1 1
        ⟨0, 0, []⟩ 0 0 0).headD (⟨0, 0, []⟩, 0, 0)).2.1 := by
  apply repair_score_delta_bounded ['A'] mapACGT allValid 8 10 ⟨0, 0, []⟩ 0 0 0
  decide

end ScoreEvalW

/-! ## C5: (non-)termination of the repair loop -/

/-- One batch on the initial heap of an empty received string leaves the heap
unchanged up to the retired score: the root expands to no children, the
bit-length check cannot fire (`bit_length ≠ 0 = maxNat`), and the heap bound
check cannot fire (the heap has one entry). -/
theorem repairBatch_empty_fixed (mapping : List Char) (valid : List Char → Bool)
    (pN lN : Nat) (cP iP dP mP : ℚ) (bitL limit salt : Nat) (sc : ℚ)
    (hL : bitL ≠ 0) (hH : 1 ≤ limit) :
    repairBatch [] mapping valid pN lN cP iP dP mP bitL limit salt
      ⟨[⟨0, 0, []⟩], [sc], [0], [0]⟩ =
      .inl ⟨[⟨0, 0, []⟩], [(((0 : Nat)) : ℚ)], [0], [0]⟩ := by
  have hused : usedIndicesOf ⟨[⟨0, 0, []⟩], [sc], [0], [0]⟩ = [0] := by
    have h0 : ([sc] : List ℚ).getD 0 0 = sc := rfl
    have hr : List.range 1 = [0] := by decide
    simp [usedIndicesOf, minScore, hr, List.filter, h0]
  simp only [repairBatch, hused]
  rw [runChucks]
  have hcond : ¬(bitL = maxNat (⟨[⟨0, 0, []⟩], List.set [sc] 0 (((([] : List Char)).length : Nat) : ℚ),
      [0], [0]⟩ : Heap).l ∨ ([⟨0, 0, []⟩] : List InfoVertex).length > limit) := by
    simp [maxNat]
    omega
  rw [vertexNext_eq_nil_of_consumed [] mapping valid pN lN cP iP dP mP _ _ _ _ (by simp)]
  rw [if_neg hcond]
  rw [runChucks]
  simp

theorem repairLoop_empty_none (mapping : List Char) (valid : List Char → Bool)
    (pN lN : Nat) (cP iP dP mP : ℚ) (bitL limit salt : Nat)
    (hL : 0 < bitL) (hH : 0 < limit) :
    ∀ fuel (sc : ℚ), repairLoop [] mapping valid pN lN cP iP dP mP bitL limit salt
      fuel ⟨[⟨0, 0, []⟩], [sc], [0], [0]⟩ = none := by
  intro fuel
  induction fuel with
  | zero => intro sc; rfl
  | succ k ih =>
    intro sc
    rw [repairLoop]
    rw [repairBatch_empty_fixed mapping valid pN lN cP iP dP mP bitL limit salt sc
      (by omega) (by omega)]
    exact ih ((0 : Nat) : ℚ)

/-- C5 counterexample: on an empty received string with `bit_length = 1`
(default penalties, strand 0, heap bound `10 ^ 6`, initial score `0`), one
whole iteration of the `while True` loop of `repair` maps the initial heap to
itself without finishing, and the selected minimum-score index set is `[0]`
both before and after; the retired sentinel `len(dna_string) = 0` equals the
retired root's own score, so the same retired vertex is re-selected forever
and `repair` never terminates. -/
theorem repair_empty_string_relooping :
    repairBatch [] mapACGT allValid 8 10 (mkRat (-7) 200) 1 1 1 1 1000000 0
      ⟨[⟨0, 0, []⟩], [0], [0], [0]⟩ = .inl ⟨[⟨0, 0, []⟩], [0], [0], [0]⟩ ∧
    usedIndicesOf ⟨[⟨0, 0, []⟩], [0], [0], [0]⟩ = [0] ∧
    repair [] 0 0 1 mapACGT allValid 46 8 10 1000000 (mkRat (-7) 200) 1 1 1 1000
      = none := by
  refine ⟨by decide, by decide, ?_⟩
  exact repairLoop_empty_none mapACGT allValid 8 10 (mkRat (-7) 200) 1 1 1
    1 1000000 0 (by omega) (by omega) 1000 0

/-- C5 (amended): `repair` does not terminate on every input with a finite
heap bound: whenever the received string is empty and the bit length is
positive (and the heap bound is at least one), the sole frontier vertex is
retired with the sentinel `len(dna_string) = 0`, which does not exceed its
reachable score; it is re-selected on every batch, no children are ever
appended, and the loop runs forever (the fuel-indexed loop yields no result
for any amount of fuel). -/
theorem repair_empty_string_diverges (strand_index : Nat) (initial_score : ℚ)
    (bit_length : Nat) (mapping : List Char) (valid : List Char → Bool)
    (salt_number previous_number low_order_number heap_limitation : Nat)
    (cP iP dP mP : ℚ) (fuel : Nat)
    (hL : 0 < bit_length) (hH : 0 < heap_limitation) :
    repair [] strand_index initial_score bit_length mapping valid salt_number
      previous_number low_order_number heap_limitation cP iP dP mP fuel = none :=
  repairLoop_empty_none mapping valid previous_number low_order_number
    cP iP dP mP bit_length heap_limitation (strand_index % 2 ^ salt_number)
    hL hH fuel initial_score

theorem repair_empty_string_diverges_witness :
    repair [] 7 0 5 mapACGT allValid 46 8 10 1000000 (mkRat (-7) 200) 1 1 1 9
      = none :=
  repair_empty_string_diverges 7 0 5 mapACGT allValid 46 8 10 1000000
    (mkRat (-7) 200) 1 1 1 9 (by omega) (by omega)

/-! ## C7: when `decode` raises -/

theorem decodeGo_err_iff (mapping : List Char) (valid : List Char → Bool)
    (salt pN lN : Nat) (dna : List Char) (L : Nat) :
    ∀ (rest : List Char) (idx : Nat) (acc : List Nat) (avail : List Char),
      decodeGo mapping valid salt pN lN dna L rest idx acc avail = .err ↔
        ∃ t, idx < t ∧ t ≤ idx + rest.length ∧
          (availSet valid mapping (dna.take t)).length = 0 := by
  intro rest
  induction rest with
  | nil =>
    intro idx acc avail
    constructor
    · intro h; exact absurd h (by simp [decodeGo])
    · rintro ⟨t, h1, h2, _⟩; simp at h2; omega
  | cons n rs ih =>
    intro idx acc avail
    obtain ⟨acc', heq⟩ : ∃ acc',
        decodeGo mapping valid salt pN lN dna L (n :: rs) idx acc avail =
          if (availSet valid mapping (dna.take (idx + 1))).length = 0 then .err
          else decodeGo mapping valid salt pN lN dna L rs (idx + 1) acc'
            (availSet valid mapping (dna.take (idx + 1))) := ⟨_, rfl⟩
    rw [heq]
    by_cases hE : (availSet valid mapping (dna.take (idx + 1))).length = 0
    · rw [if_pos hE]
      constructor
      · intro _
        exact ⟨idx + 1, by omega, by simp only [List.length_cons]; omega, hE⟩
      · intro _; rfl
    · rw [if_neg hE, ih (idx + 1) acc' _]
      constructor
      · rintro ⟨t, h1, h2, h3⟩
        exact ⟨t, by omega, by simp only [List.length_cons] at h2 ⊢; omega, h3⟩
      · rintro ⟨t, h1, h2, h3⟩
        refine ⟨t, ?_, by simp only [List.length_cons] at h2 ⊢; omega, h3⟩
        rcases Nat.lt_or_ge (idx + 1) t with h | h
        · omega
        · have : t = idx + 1 := by omega
          subst this
          exact absurd h3 hE

/-- C7 counterexample: `decode` is run on the single-nucleotide string `"A"`
with an oracle accepting only prefixes of length at most one.  Every
nucleotide of the string is processed and there is no intermediate position,
yet `decode` raises: the availability check performed after consuming the
final (only) nucleotide finds the available set empty. -/
theorem decode_err_on_final_check :
    decode ['A'] 0 1 mapACGT validLe1 46 8 10 = .err ∧
    (availSet validLe1 mapACGT (['A'].take 1)).length = 0 := by decide

/-- C7 (amended): `decode` fails (with the `ValueError` of line 177) exactly
when the available set recomputed after some consumed nucleotide — any
position from 1 up to and including `|S|`, so also the check performed after
the final nucleotide of `S` — is empty; when every such set is nonempty,
`decode` returns normally. -/
theorem decode_err_iff_empty_avail (dna_string : List Char)
    (strand_index bit_length : Nat) (mapping : List Char)
    (valid : List Char → Bool) (salt_number previous_number low_order_number : Nat) :
    decode dna_string strand_index bit_length mapping valid
        salt_number previous_number low_order_number = .err ↔
      ∃ t, 0 < t ∧ t ≤ dna_string.length ∧
        (availSet valid mapping (dna_string.take t)).length = 0 := by
  unfold decode
  have h := decodeGo_err_iff mapping valid (strand_index % 2 ^ salt_number)
    previous_number low_order_number dna_string bit_length dna_string 0 [] mapping
  simp only [Nat.zero_add] at h
  rw [← h]
  cases hres : decodeGo mapping valid (strand_index % 2 ^ salt_number)
    previous_number low_order_number dna_string bit_length dna_string 0 [] mapping <;>
    simp

/-! ## C8: what repair returns when the heap bound is exceeded -/

theorem runChucks_inr_shape (dna mapping : List Char) (valid : List Char → Bool)
    (pN lN : Nat) (cP iP dP mP : ℚ) (bitL limit salt : Nat) :
    ∀ (chucks : List Nat) (us : ℚ) (h : Heap) (res : List (List Char) × Nat),
      runChucks dna mapping valid pN lN cP iP dP mP bitL limit salt chucks us h
        = .inr res →
      ∃ h' : Heap, (bitL = maxNat h'.l ∨ h'.v.length > limit) ∧
        res = (heapWinners h' bitL, h'.v.length) := by
  intro chucks
  induction chucks with
  | nil => intro us h res hr; simp [runChucks] at hr
  | cons c rest ih =>
    intro us h res hr
    rw [runChucks] at hr
    split at hr
    · rename_i hcond
      refine ⟨_, hcond, ?_⟩
      injection hr with hr
      exact hr.symm
    · exact ih us _ res hr

section ScoreEvalC8

attribute [local semireducible] Rat.add

/-- C8 counterexample: with the received string `"A"`, `bit_length = 1` and a
heap bound of `2`, `repair` exceeds the bound and returns **normally** — the
pair of an empty candidate list and the final frontier size `9 > 2` — rather
than surfacing any `RepairBudgetExhausted` error; the budget exhaustion is
observable only through the returned size, and no strand index accompanies
it. -/
theorem repair_budget_returns_normally :
    repair ['A'] 0 0 1 mapACGT allValid 46 8 10 2 (mkRat (-7) 200) 1 1 1 3
      = some ([], 9) := by decide

end ScoreEvalC8

/-- C8 (amended): `repair` never raises: whenever its loop returns — in
particular when it exits because the frontier size exceeded the heap bound —
the value is the pair of the deduplicated strings of the frontier entries
whose produced bit count equals `bit_length` (possibly the empty list)
together with the final frontier size, taken at a check state satisfying the
exit condition; budget exhaustion is detectable only by the returned size
exceeding the bound, and the strand index is not attached. -/
theorem repair_budget_no_error (dna_string : List Char) (strand_index : Nat)
    (initial_score : ℚ) (bit_length : Nat) (mapping : List Char)
    (valid : List Char → Bool)
    (salt_number previous_number low_order_number heap_limitation : Nat)
    (cP iP dP mP : ℚ) (fuel : Nat) (res : List (List Char) × Nat)
    (h : repair dna_string strand_index initial_score bit_length mapping valid
      salt_number previous_number low_order_number heap_limitation
      cP iP dP mP fuel = some res) :
    ∃ h' : Heap, (bit_length = maxNat h'.l ∨ h'.v.length > heap_limitation) ∧
      res = (heapWinners h' bit_length, h'.v.length) := by
  unfold repair at h
  revert h
  generalize (⟨[⟨0, 0, []⟩], [initial_score], [0], [0]⟩ : Heap) = h0
  revert h0
  induction fuel with
  | zero => intro h0 h; simp [repairLoop] at h
  | succ k ih =>
    intro h0 h
    rw [repairLoop] at h
    revert h
    cases hb : repairBatch dna_string mapping valid previous_number
        low_order_number cP iP dP mP bit_length heap_limitation
        (strand_index % 2 ^ salt_number) h0 with
    | inl h2 => intro h; exact ih h2 h
    | inr r =>
      intro h
      injection h with h
      subst h
      simp only [repairBatch] at hb
      exact runChucks_inr_shape dna_string mapping valid previous_number
        low_order_number cP iP dP mP bit_length heap_limitation
        (strand_index % 2 ^ salt_number) _ _ _ _ hb

section ScoreEvalC8W

attribute [local semireducible] Rat.add

theorem repair_budget_no_error_witness :
    ∃ h' : Heap, ((1 : Nat) = maxNat h'.l ∨ h'.v.length > 2) ∧
      (([], 9) : List (List Char) × Nat) = (heapWinners h' 1, h'.v.length) :=
  repair_budget_no_error ['A'] 0 0 1 mapACGT allValid 46 8 10 2
    (mkRat (-7) 200) 1 1 1 3 ([], 9) (by decide)

end ScoreEvalC8W

/-! ## C4: the bit-length termination check is an equality test -/

theorem usedIndicesOf_ne_nil (h : Heap) (hs : h.s ≠ []) : usedIndicesOf h ≠ [] := by
  have hmem := minScore_mem h.s hs
  obtain ⟨k, hk, hkeq⟩ := List.mem_iff_getElem.mp hmem
  apply List.ne_nil_of_mem (a := k)
  apply List.mem_filter.mpr
  refine ⟨List.mem_range.mpr hk, ?_⟩
  simp [List.getD_eq_getElem _ _ hk, List.getElem?_eq_getElem hk, hkeq]

/-- C4 (amended): whenever the maximum produced bit count over the frontier
is **exactly equal** to the target bit length (the code's check
`bit_length == max(heap["l"])` at line 356), the next loop iteration
terminates at its first chuck, returning exactly the deduplicated strings of
the frontier entries whose produced bit count equals the target, with the
frontier size; a frontier whose maximum strictly overshoots the target
without an entry equal to it does not trigger this check. -/
theorem repair_terminates_on_exact_bit_length (dna mapping : List Char)
    (valid : List Char → Bool) (pN lN : Nat) (cP iP dP mP : ℚ)
    (bitL limit salt : Nat) (h : Heap) (hs : h.s ≠ [])
    (hmax : bitL = maxNat h.l) (fuel : Nat) :
    repairLoop dna mapping valid pN lN cP iP dP mP bitL limit salt (fuel + 1) h =
      some (heapWinners h bitL, h.v.length) := by
  rw [repairLoop]
  obtain ⟨c, rest, hcr⟩ := List.exists_cons_of_ne_nil (usedIndicesOf_ne_nil h hs)
  have hbatch : repairBatch dna mapping valid pN lN cP iP dP mP bitL limit salt h =
      .inr (heapWinners h bitL, h.v.length) := by
    simp only [repairBatch, hcr]
    rw [runChucks]
    rw [if_pos (Or.inl hmax)]
    rfl
  rw [hbatch]

section ScoreEvalC4

attribute [local semireducible] Rat.add

/-- C4 counterexample: a reachable state of the repair search (the frontier
after the first batch on `"A"` with target bit length `1`) has maximum
produced bit count `2 ≥ 1` but no entry with bit count exactly `1`; contrary
to the claim, the search does **not** terminate there — the next batch
continues (`.isRight = false`) because the code's check at line 356 tests
`bit_length == max(heap["l"])` for equality, which an overshooting frontier
never satisfies. -/
theorem repair_overshoot_not_terminating :
    repairBatch ['A'] mapACGT allValid 8 10 (mkRat (-7) 200) 1 1 1 1 1000000 0
      ⟨[⟨0, 0, []⟩], [0], [0], [0]⟩ = .inl c4Heap ∧
    1 ≤ maxNat c4Heap.l ∧ c4Heap.l.count 1 = 0 ∧
    (repairBatch ['A'] mapACGT allValid 8 10 (mkRat (-7) 200) 1 1 1 1 1000000 0
      c4Heap).isRight = false := by decide

theorem repair_terminates_on_exact_bit_length_witness :
    repairLoop ['A'] mapACGT allValid 8 10 (mkRat (-7) 200) 1 1 1 2 1000000 0 1
      ⟨[⟨0, 2, ['A', 'C']⟩], [5], [1], [2]⟩ = some ([['A', 'C']], 1) := by
  rw [repair_terminates_on_exact_bit_length ['A'] mapACGT allValid 8 10
    (mkRat (-7) 200) 1 1 1 2 1000000 0 ⟨[⟨0, 2, ['A', 'C']⟩], [5], [1], [2]⟩
    (by decide) (by decide) 0]
  decide

end ScoreEvalC4

/-! ## Invariants of the encode loop -/

/-- The nucleotide emitted by one encode step is drawn from the current
available set (when that set is nonempty). -/
theorem encStep_mem (msg : List Nat) (salt pN lN : Nat) (avail : List Char)
    (bitLoc : Nat) (hne : avail ≠ []) :
    (encStep msg salt pN lN avail bitLoc).1 ∈ avail := by
  have hlen : 0 < avail.length := List.length_pos.mpr hne
  simp only [encStep]
  split_ifs with h1 h2 <;> apply getD_mem_of_lt <;> omega

/-- One encode step advances the bit cursor by at most two (and never moves
it backwards). -/
theorem encStep_loc (msg : List Nat) (salt pN lN : Nat) (avail : List Char)
    (bitLoc : Nat) :
    bitLoc ≤ (encStep msg salt pN lN avail bitLoc).2 ∧
      (encStep msg salt pN lN avail bitLoc).2 ≤ bitLoc + 2 := by
  simp only [encStep]
  split_ifs <;> simp

/-- A successful encode run only appends to the string it starts from. -/
theorem encodeLoop_prefix (msg : List Nat) (mapping : List Char)
    (valid : List Char → Bool) (salt pN lN : Nat) :
    ∀ (fuel : Nat) (dna avail : List Char) (bitLoc : Nat) (s : List Char),
      encodeLoop msg mapping valid salt pN lN fuel dna avail bitLoc = .ok s →
      ∃ u, s = dna ++ u := by
  intro fuel
  induction fuel with
  | zero => intro dna avail bitLoc s h; exact absurd h (by simp [encodeLoop])
  | succ k ih =>
    intro dna avail bitLoc s h
    simp only [encodeLoop] at h
    split at h
    · split at h
      · exact absurd h (by simp)
      · obtain ⟨u, hu⟩ := ih _ _ _ _ h
        exact ⟨_ :: u, by rw [hu, List.append_assoc]; rfl⟩
    · injection h with h
      exact ⟨[], by rw [h, List.append_nil]⟩

/-- Every available set recomputed during a successful encode run — for each
prefix of the output of length 1 up to the full output — is nonempty. -/
theorem encodeLoop_avail_nonempty (msg : List Nat) (mapping : List Char)
    (valid : List Char → Bool) (salt pN lN : Nat) :
    ∀ (fuel : Nat) (dna avail : List Char) (bitLoc : Nat) (s : List Char),
      encodeLoop msg mapping valid salt pN lN fuel dna avail bitLoc = .ok s →
      ∀ t, dna.length < t → t ≤ s.length →
        (availSet valid mapping (s.take t)).length ≠ 0 := by
  intro fuel
  induction fuel with
  | zero => intro dna avail bitLoc s h; exact absurd h (by simp [encodeLoop])
  | succ k ih =>
    intro dna avail bitLoc s h t ht1 ht2
    simp only [encodeLoop] at h
    split at h
    · split at h
      · exact absurd h (by simp)
      · rename_i hlt hne
        obtain ⟨u, hu⟩ := encodeLoop_prefix msg mapping valid salt pN lN _ _ _ _ _ h
        rcases Nat.lt_or_ge (dna.length + 1) t with hgt | hle
        · exact ih _ _ _ _ h t (by simpa using hgt) ht2
        · have ht : t = dna.length + 1 := by omega
          subst ht
          have htake : s.take (dna.length + 1) =
              dna ++ [(encStep msg salt pN lN avail bitLoc).1] := by
            rw [hu]
            have hl : (dna ++ [(encStep msg salt pN lN avail bitLoc).1]).length =
                dna.length + 1 := by simp
            rw [← hl, List.take_left]
          rw [htake]
          exact hne
    · injection h with h
      subst h
      omega

/-- When the encode loop is entered with the available set that the oracle
actually assigns to the current string (and that set is nonempty), every
strictly longer prefix of the output is valid under the oracle. -/
theorem encodeLoop_valid_prefix (msg : List Nat) (mapping : List Char)
    (valid : List Char → Bool) (salt pN lN : Nat) :
    ∀ (fuel : Nat) (dna avail : List Char) (bitLoc : Nat) (s : List Char),
      encodeLoop msg mapping valid salt pN lN fuel dna avail bitLoc = .ok s →
      avail = availSet valid mapping dna → avail ≠ [] →
      ∀ t, dna.length < t → t ≤ s.length → valid (s.take t) = true := by
  intro fuel
  induction fuel with
  | zero => intro dna avail bitLoc s h; exact absurd h (by simp [encodeLoop])
  | succ k ih =>
    intro dna avail bitLoc s h hav hne t ht1 ht2
    simp only [encodeLoop] at h
    split at h
    · split at h
      · exact absurd h (by simp)
      · rename_i hlt hne2
        obtain ⟨u, hu⟩ := encodeLoop_prefix msg mapping valid salt pN lN _ _ _ _ _ h
        rcases Nat.lt_or_ge (dna.length + 1) t with hgt | hle
        · refine ih _ _ _ _ h rfl ?_ t (by simpa using hgt) ht2
          intro hnil
          exact hne2 (by rw [hnil]; rfl)
        · have ht : t = dna.length + 1 := by omega
          subst ht
          have htake : s.take (dna.length + 1) =
              dna ++ [(encStep msg salt pN lN avail bitLoc).1] := by
            rw [hu]
            have hl : (dna ++ [(encStep msg salt pN lN avail bitLoc).1]).length =
                dna.length + 1 := by simp
            rw [← hl, List.take_left]
          rw [htake]
          have hmem := encStep_mem msg salt pN lN avail bitLoc hne
          rw [hav] at hmem ⊢
          exact (mem_availSet hmem).2
    · injection h with h
      subst h
      omega

/-! ## C2: constraint safety of encode and repair -/

/-- C2 counterexample: with the oracle rejecting exactly the length-one
prefixes, `encode` succeeds on the two-bit message `[0, 0]` (strand 0,
mapping `ACGT`) and returns the one-nucleotide string `"T"`, whose
one-nucleotide prefix the oracle rejects: the very first nucleotide is chosen
from the full mapping before any oracle query, so it can violate the
constraint. -/
theorem encode_first_nucleotide_unchecked :
    encode [0, 0] 0 mapACGT validNe1 46 8 10 10 = .ok ['T'] ∧
    validNe1 ['T'] = false := by decide

/-- C2 (amended): every nucleotide appended by `encode` **after the first**
produces a prefix the oracle accepts, and every available set recomputed
after an append (including after the final nucleotide) is nonempty — the
encoder fails with a `ValueError` instead of continuing when it would be
empty; every nucleotide appended to a vertex string by repair's expansion
produces a prefix the oracle accepts.  The first nucleotide of `encode` is
chosen from the full mapping with no oracle query and its one-nucleotide
prefix need not be valid. -/
theorem constraint_safety_amended :
    (∀ (msg : List Nat) (strand : Nat) (mapping : List Char)
      (valid : List Char → Bool) (saltN pN lN fuel : Nat) (s : List Char),
      encode msg strand mapping valid saltN pN lN fuel = .ok s →
      (∀ t, 2 ≤ t → t ≤ s.length → valid (s.take t) = true) ∧
      (∀ t, 1 ≤ t → t ≤ s.length →
        (availSet valid mapping (s.take t)).length ≠ 0)) ∧
    (∀ (dna mapping : List Char) (valid : List Char → Bool) (pN lN : Nat)
      (cP iP dP mP : ℚ) (self : InfoVertex) (sv j : Nat) (sc : ℚ)
      (c : InfoVertex × ℚ × Nat),
      c ∈ vertexNext dna mapping valid pN lN cP iP dP mP self sv j sc →
      valid c.1.string = true) := by
  constructor
  · intro msg strand mapping valid saltN pN lN fuel s henc
    constructor
    · intro t ht1 ht2
      unfold encode at henc
      match fuel, henc with
      | fuel + 1, henc =>
        simp only [encodeLoop] at henc
        split at henc
        · split at henc
          · exact absurd henc (by simp)
          · rename_i hlt hne2
            refine encodeLoop_valid_prefix msg mapping valid _ pN lN
              _ _ _ _ _ henc rfl ?_ t (by simpa using ht1) ht2
            intro hnil
            exact hne2 (by rw [hnil]; rfl)
        · injection henc with henc
          subst henc
          simp at ht2
          omega
    · intro t ht1 ht2
      exact encodeLoop_avail_nonempty msg mapping valid _ pN lN
        fuel [] mapping 0 s henc t (by simpa using ht1) ht2
  · intro dna mapping valid pN lN cP iP dP mP self sv j sc c hc
    obtain ⟨⟨n, hn, hstr⟩, _⟩ :=
      vertexNext_child_shape dna mapping valid pN lN cP iP dP mP self sv j sc c hc
    rw [hstr]
    exact (mem_availSet hn).2

section ScoreEvalC2W

attribute [local semireducible] Rat.add

theorem constraint_safety_amended_witness :
    allValid ((['A', 'C', 'G', 'A'] : List Char).take 2) = true ∧
    (availSet allValid mapACGT ((['A', 'C', 'G', 'A'] : List Char).take 4)).length ≠ 0 ∧
    allValid ((vertexNext ['A'] mapACGT allValid 8 10 (mkRat (-7) 200) 1 1 1
      ⟨0, 0, []⟩ 0 0 0).headD (⟨0, 0, []⟩, 0, 0)).1.string = true := by
  refine ⟨?_, ?_, ?_⟩
  · exact (constraint_safety_amended.1 [0, 1, 0, 1, 0, 1, 0, 1] 0 mapACGT allValid
      46 8 10 10 ['A', 'C', 'G', 'A'] (by decide)).1 2 (by decide) (by decide)
  · exact (constraint_safety_amended.1 [0, 1, 0, 1, 0, 1, 0, 1] 0 mapACGT allValid
      46 8 10 10 ['A', 'C', 'G', 'A'] (by decide)).2 4 (by decide) (by decide)
  · exact constraint_safety_amended.2 ['A'] mapACGT allValid 8 10
      (mkRat (-7) 200) 1 1 1 ⟨0, 0, []⟩ 0 0 0 _ (by decide)

end ScoreEvalC2W

/-! ## C9: length bounds on the encoder output -/

theorem encodeLoop_bit_lower (msg : List Nat) (mapping : List Char)
    (valid : List Char → Bool) (salt pN lN : Nat) :
    ∀ (fuel : Nat) (dna avail : List Char) (bitLoc : Nat) (s : List Char),
      encodeLoop msg mapping valid salt pN lN fuel dna avail bitLoc = .ok s →
      ∃ k, s.length = dna.length + k ∧ msg.length ≤ bitLoc + 2 * k := by
  intro fuel
  induction fuel with
  | zero => intro dna avail bitLoc s h; exact absurd h (by simp [encodeLoop])
  | succ n ih =>
    intro dna avail bitLoc s h
    simp only [encodeLoop] at h
    split at h
    · split at h
      · exact absurd h (by simp)
      · obtain ⟨k, hk1, hk2⟩ := ih _ _ _ _ h
        have hloc := encStep_loc msg salt pN lN avail bitLoc
        exact ⟨k + 1, by simp at hk1 ⊢; omega, by omega⟩
    · injection h with h
      subst h
      exact ⟨0, by omega, by rename_i hge; omega⟩

theorem encodeLoop_all4 (msg : List Nat) (mapping : List Char)
    (valid : List Char → Bool) (salt pN lN : Nat) :
    ∀ (fuel : Nat) (dna avail : List Char) (bitLoc : Nat) (s : List Char),
      encodeLoop msg mapping valid salt pN lN fuel dna avail bitLoc = .ok s →
      (bitLoc < msg.length → avail.length = 4) →
      (∀ t, 0 < t → t < s.length → dna.length ≤ t →
        (availSet valid mapping (s.take t)).length = 4) →
      ∃ k, s.length = dna.length + k ∧
        (msg.length ≤ bitLoc → k = 0) ∧
        (bitLoc < msg.length →
          msg.length ≤ bitLoc + 2 * k ∧ bitLoc + 2 * k < msg.length + 2) := by
  intro fuel
  induction fuel with
  | zero => intro dna avail bitLoc s h; exact absurd h (by simp [encodeLoop])
  | succ n ih =>
    intro dna avail bitLoc s h h4 hall
    simp only [encodeLoop] at h
    split at h
    · rename_i hlt
      split at h
      · exact absurd h (by simp)
      · rename_i hne2
        have hav4 : avail.length = 4 := h4 hlt
        have hstep : (encStep msg salt pN lN avail bitLoc).2 = bitLoc + 2 := by
          simp only [encStep]
          rw [if_neg (by omega), if_neg (by omega)]
        rw [hstep] at h
        have h4next : bitLoc + 2 < msg.length →
            (availSet valid mapping
              (dna ++ [(encStep msg salt pN lN avail bitLoc).1])).length = 4 := by
          intro hlt2
          match n, h with
          | n + 1, h =>
            have hlenlt : dna.length + 1 < s.length := by
              simp only [encodeLoop] at h
              rw [if_pos hlt2] at h
              revert h
              split
              · intro h; exact absurd h (by simp)
              · intro h
                obtain ⟨u, hu⟩ := encodeLoop_prefix msg mapping valid salt pN lN
                  _ _ _ _ _ h
                rw [hu]
                simp
            have htake : s.take (dna.length + 1) =
                dna ++ [(encStep msg salt pN lN avail bitLoc).1] := by
              obtain ⟨u, hu⟩ := encodeLoop_prefix msg mapping valid salt pN lN
                _ _ _ _ _ h
              rw [hu]
              have hl : (dna ++ [(encStep msg salt pN lN avail bitLoc).1]).length =
                  dna.length + 1 := by simp
              rw [← hl, List.take_left]
            rw [← htake]
            exact hall (dna.length + 1) (by omega) hlenlt (by omega)
        by_cases hcont : bitLoc + 2 < msg.length
        · obtain ⟨k, hk1, hk2, hk3⟩ := ih _ _ _ _ h (fun _ => h4next hcont)
            (fun t ht1 ht2 ht3 => hall t ht1 ht2 (by simp at ht3; omega))
          refine ⟨k + 1, by simp at hk1 ⊢; omega, by omega, ?_⟩
          intro _
          have := hk3 hcont
          omega
        · obtain ⟨k, hk1, hk2, hk3⟩ := ih _ _ _ _ h
            (fun hx => absurd hx (by omega))
            (fun t ht1 ht2 ht3 => hall t ht1 ht2 (by simp at ht3; omega))
          have hk0 : k = 0 := hk2 (by omega)
          subst hk0
          refine ⟨1, by simp at hk1 ⊢; omega, by omega, by omega⟩
    · injection h with h
      subst h
      rename_i hge
      exact ⟨0, by omega, fun _ => rfl, fun hx => absurd hx (by omega)⟩

/-- C9 (confirmed): whenever `encode` succeeds, the output satisfies
`|encode(bits)| ≥ ⌈|bits|/2⌉` (stated as `|bits| ≤ 2 |s|`), and when the
available set has cardinality 4 at every position — the initial set is the
4-nucleotide mapping and every recomputed set keeps cardinality 4 —
`|encode(bits)| ≤ |bits|` also holds. -/
theorem encode_length_bounds (msg : List Nat) (strand : Nat)
    (mapping : List Char) (valid : List Char → Bool)
    (saltN pN lN fuel : Nat) (s : List Char)
    (henc : encode msg strand mapping valid saltN pN lN fuel = .ok s) :
    msg.length ≤ 2 * s.length ∧
    (mapping.length = 4 →
      (∀ t, 0 < t → t < s.length →
        (availSet valid mapping (s.take t)).length = 4) →
      s.length ≤ msg.length) := by
  unfold encode at henc
  constructor
  · obtain ⟨k, h1, h2⟩ := encodeLoop_bit_lower msg mapping valid _ pN lN
      fuel [] mapping 0 s henc
    simp at h1
    omega
  · intro h4 hall
    obtain ⟨k, h1, hstop, hcont⟩ := encodeLoop_all4 msg mapping valid _ pN lN
      fuel [] mapping 0 s henc (fun _ => h4)
      (fun t ht1 ht2 _ => hall t ht1 ht2)
    simp at h1
    by_cases hL : msg.length = 0
    · have := hstop (by omega)
      omega
    · have := hcont (by omega)
      omega

theorem encode_length_bounds_witness :
    ([0, 1, 0, 1, 0, 1, 0, 1] : List Nat).length ≤
      2 * (['A', 'C', 'G', 'A'] : List Char).length :=
  (encode_length_bounds [0, 1, 0, 1, 0, 1, 0, 1] 0 mapACGT allValid 46 8 10 10
    ['A', 'C', 'G', 'A'] (by decide)).1

/-! ## C1: the decoder inverts the encoder -/

theorem getD_le_one (msg : List Nat) (hbits : ∀ b ∈ msg, b ≤ 1) (i : Nat) :
    msg.getD i 0 ≤ 1 := by
  by_cases hi : i < msg.length
  · rw [List.getD_eq_getElem _ _ hi]
    exact hbits _ (List.getElem_mem hi)
  · rw [List.getD_eq_default _ _ (by omega)]
    omega

theorem take_succ_getD (l : List Nat) (i : Nat) (hi : i < l.length) :
    l.take (i + 1) = l.take i ++ [l.getD i 0] := by
  rw [List.getD_eq_getElem _ _ hi, List.take_succ, List.getElem?_eq_getElem hi]
  rfl

theorem find?_range4_eq (p : Nat → Bool) (b : Nat) (hb : b < 4)
    (hpb : p b = true) (hbefore : ∀ a, a < b → p a = false) :
    (List.range 4).find? p = some b := by
  have h4 : List.range 4 = [0, 1, 2, 3] := by decide
  rw [h4]
  interval_cases b
  · rw [List.find?_cons_of_pos _ hpb]
  · rw [List.find?_cons_of_neg _ (by simp [hbefore 0 (by omega)]),
      List.find?_cons_of_pos _ hpb]
  · rw [List.find?_cons_of_neg _ (by simp [hbefore 0 (by omega)]),
      List.find?_cons_of_neg _ (by simp [hbefore 1 (by omega)]),
      List.find?_cons_of_pos _ hpb]
  · rw [List.find?_cons_of_neg _ (by simp [hbefore 0 (by omega)]),
      List.find?_cons_of_neg _ (by simp [hbefore 1 (by omega)]),
      List.find?_cons_of_neg _ (by simp [hbefore 2 (by omega)]),
      List.find?_cons_of_pos _ hpb]

/-- The decode accumulator update inverts one encode step: fed the emitted
nucleotide and the bits decoded so far (`msg.take bitLoc`), it extends the
accumulator to exactly the bits consumed by the encoder
(`msg.take` of the new cursor) — including the ragged single-bit tail at a
4-way branch. -/
theorem decodeStepAcc_encStep (msg : List Nat) (mapping : List Char)
    (salt pN lN : Nat) (avail : List Char) (bitLoc : Nat)
    (hnd : mapping.Nodup) (hm4 : mapping.length = 4)
    (hbits : ∀ b ∈ msg, b ≤ 1)
    (hsub : List.Sublist avail mapping) (hne : avail ≠ [])
    (hlt : bitLoc < msg.length) :
    decodeStepAcc salt pN lN msg.length avail
      (encStep msg salt pN lN avail bitLoc).1 (msg.take bitLoc) =
      msg.take (encStep msg salt pN lN avail bitLoc).2 := by
  have hlen : (msg.take bitLoc).length = bitLoc := by
    rw [List.length_take]
    omega
  have havnd : avail.Nodup := hnd.sublist hsub
  have havle : avail.length ≤ 4 := by
    rw [← hm4]
    exact hsub.length_le
  have hprev : (if pN ≤ bitLoc then
      bit_to_number ((msg.take bitLoc).drop (bitLoc - pN)) else 0) =
      (if pN ≤ bitLoc then
        bit_to_number ((msg.drop (bitLoc - pN)).take pN) else 0) := by
    by_cases hp : pN ≤ bitLoc
    · rw [if_pos hp, if_pos hp, List.drop_take]
      have harith : bitLoc - (bitLoc - pN) = pN := by omega
      rw [harith]
    · rw [if_neg hp, if_neg hp]
  by_cases h1 : avail.length = 1
  · simp only [decodeStepAcc, encStep, if_pos h1, hlen, hprev]
  · by_cases h2 : avail.length = 2 ∨ avail.length = 3
    · have hge2 : 2 ≤ avail.length := by rcases h2 with h | h <;> omega
      simp only [decodeStepAcc, encStep, if_neg h1, if_pos h2, hlen, hprev]
      have hb := getD_le_one msg hbits bitLoc
      have htake := take_succ_getD msg bitLoc hlt
      rcases Nat.le_one_iff_eq_zero_or_eq_one.mp hb with hb0 | hb1
      · rw [hb0, if_pos rfl, htake, hb0]
      · rw [hb1]
        rw [if_neg (getD_ne_getD avail 'A' havnd _ _ (by omega) (by omega)
          (by omega))]
        rw [htake, hb1]
    · have h0 : avail.length ≠ 0 := fun h => hne (List.length_eq_zero.mp h)
      have h4 : avail.length = 4 := by omega
      simp only [decodeStepAcc, encStep, if_neg h1, if_neg h2, hlen, hprev]
      have hm0 := getD_le_one msg hbits bitLoc
      have hm1 := getD_le_one msg hbits (bitLoc + 1)
      by_cases hmid : bitLoc + 2 ≤ msg.length
      · rw [if_pos hmid]
        rw [find?_range4_eq _ (2 * msg.getD bitLoc 0 + msg.getD (bitLoc + 1) 0)
          (by omega) (by simp)
          (fun a ha => by
            simp only [decide_eq_false_iff_not]
            exact getD_ne_getD avail 'A' havnd _ _ (by omega) (by omega)
              (by omega))]
        simp only []
        rw [if_neg (by omega : ¬ msg.length < bitLoc + 2)]
        rw [take_succ_getD msg (bitLoc + 1) (by omega),
          take_succ_getD msg bitLoc (by omega)]
        have hdiv : (2 * msg.getD bitLoc 0 + msg.getD (bitLoc + 1) 0) / 2 =
            msg.getD bitLoc 0 := by omega
        have hmod : (2 * msg.getD bitLoc 0 + msg.getD (bitLoc + 1) 0) % 2 =
            msg.getD (bitLoc + 1) 0 := by omega
        rw [hdiv, hmod, List.append_assoc]
        rfl
      · rw [if_neg hmid]
        rw [find?_range4_eq _ (msg.getD bitLoc 0) (by omega) (by simp)
          (fun a ha => by
            simp only [decide_eq_false_iff_not]
            exact getD_ne_getD avail 'A' havnd _ _ (by omega) (by omega)
              (by omega))]
        simp only []
        rw [if_pos (by omega : msg.length < bitLoc + 2)]
        have hmod : msg.getD bitLoc 0 % 2 = msg.getD bitLoc 0 := by omega
        rw [hmod]
        have hL : msg.length = bitLoc + 1 := by omega
        rw [← take_succ_getD msg bitLoc hlt, List.take_of_length_le (by omega),
          List.take_of_length_le (by omega)]

/-- The available set is always a sublist of the mapping (it is a filter of
it, in mapping order). -/
theorem availSet_sublist (valid : List Char → Bool) (mapping dna : List Char) :
    List.Sublist (availSet valid mapping dna) mapping :=
  List.filter_sublist mapping

/-- Main round-trip invariant: if the encode loop completes successfully from
an intermediate state, then the decode loop, walking the remaining emitted
nucleotides with the bits decoded so far and the same available set,
reconstructs the whole message. -/
theorem encodeLoop_decodeGo (msg : List Nat) (mapping : List Char)
    (valid : List Char → Bool) (salt pN lN : Nat)
    (hnd : mapping.Nodup) (hm4 : mapping.length = 4)
    (hbits : ∀ b ∈ msg, b ≤ 1) :
    ∀ (fuel : Nat) (dna avail : List Char) (bitLoc : Nat) (s : List Char),
      encodeLoop msg mapping valid salt pN lN fuel dna avail bitLoc = .ok s →
      List.Sublist avail mapping → avail ≠ [] →
      decodeGo mapping valid salt pN lN s msg.length (s.drop dna.length)
        dna.length (msg.take bitLoc) avail = .ok msg := by
  intro fuel
  induction fuel with
  | zero => intro dna avail bitLoc s h _ _; exact absurd h (by simp [encodeLoop])
  | succ n ih =>
    intro dna avail bitLoc s h hsub hne
    simp only [encodeLoop] at h
    split at h
    · rename_i hlt
      split at h
      · exact absurd h (by simp)
      · rename_i hne2
        obtain ⟨u, hu⟩ := encodeLoop_prefix msg mapping valid salt pN lN _ _ _ _ _ h
        have hl : (dna ++ [(encStep msg salt pN lN avail bitLoc).1]).length
            = dna.length + 1 := by simp
        have hdrop2 : s.drop (dna.length + 1) = u := by
          rw [hu, ← hl, List.drop_left]
        have hdrop1 : s.drop dna.length =
            (encStep msg salt pN lN avail bitLoc).1 :: u := by
          rw [hu, List.append_assoc, List.drop_left]
          rfl
        have htake1 : s.take (dna.length + 1) =
            dna ++ [(encStep msg salt pN lN avail bitLoc).1] := by
          rw [hu, ← hl, List.take_left]
        rw [hdrop1, decodeGo, htake1, if_neg hne2]
        rw [decodeStepAcc_encStep msg mapping salt pN lN avail bitLoc hnd hm4
          hbits hsub hne hlt]
        have hrec := ih (dna ++ [(encStep msg salt pN lN avail bitLoc).1])
          (availSet valid mapping (dna ++ [(encStep msg salt pN lN avail bitLoc).1]))
          (encStep msg salt pN lN avail bitLoc).2 s h
          (availSet_sublist valid mapping _)
          (fun hx => hne2 (by rw [hx]; rfl))
        rw [hl, hdrop2] at hrec
        exact hrec
    · injection h with h
      subst h
      rw [List.drop_length, decodeGo, List.take_of_length_le (by omega)]

/-- C1 (confirmed): for every message of bits, strand index, duplicate-free
4-nucleotide mapping and oracle such that `encode` succeeds, decoding the
encoded DNA string with identical parameters, mapping, oracle, strand index
and `bit_length = |bits|` returns exactly the original bit sequence,
bit-for-bit — including when the last nucleotide carries a single ragged bit
at a 4-way branch. -/
theorem encode_decode_roundtrip (msg : List Nat) (strand_index : Nat)
    (mapping : List Char) (valid : List Char → Bool)
    (salt_number previous_number low_order_number fuel : Nat) (s : List Char)
    (hnd : mapping.Nodup) (hm4 : mapping.length = 4)
    (hbits : ∀ b ∈ msg, b ≤ 1)
    (henc : encode msg strand_index mapping valid salt_number previous_number
      low_order_number fuel = .ok s) :
    decode s strand_index msg.length mapping valid salt_number previous_number
      low_order_number = .ok msg := by
  unfold encode at henc
  unfold decode
  have hgo := encodeLoop_decodeGo msg mapping valid
    (strand_index % 2 ^ salt_number) previous_number low_order_number
    hnd hm4 hbits fuel [] mapping 0 s henc (List.Sublist.refl mapping)
    (by intro hx; rw [hx] at hm4; simp at hm4)
  simp only [List.drop_zero, List.take_zero, List.length_nil] at hgo
  rw [hgo]
  simp [List.take_length]

theorem encode_decode_roundtrip_witness :
    decode ['A', 'C', 'G', 'A'] 0 8 mapACGT allValid 46 8 10
      = .ok [0, 1, 0, 1, 0, 1, 0, 1] :=
  encode_decode_roundtrip [0, 1, 0, 1, 0, 1, 0, 1] 0 mapACGT allValid 46 8 10
    10 ['A', 'C', 'G', 'A'] (by decide) (by decide) (by decide) (by decide)

end PyHedges
